import Mathlib

/-!
Shallow embedding of `bmfont2c.py` (BMFont-to-C bitmap font converter) and
verification of its specification.

The core of the program is `Glyph.makeBitmapCode`: for a target cell of
`width` pixels by `height` rows it walks every target pixel, maps it back
into the glyph's rectangle on the glyph sheet, binarizes the sampled
intensity at threshold 127, and packs the resulting bits MSB-first into
bytes, one row at a time.  Around it, `makeBitmapsTable`,
`makeWidthsTable`, `makeBitmapsOffsetTable` and `makeFontSource` assemble
the per-font tables over a configured inclusive code-point range, with an
optional character subset and a first-glyph substitution policy for
missing glyphs.  The process-wide byte counter (`total_ram` in the source)
is modelled as the `ram` component threaded through the builders.

Images are modelled as total samplers `Int → Int → Nat` (the Pillow
`getpixel` call on a grayscale image); fallible code paths (indexing
`glyphs[0]` on an empty collection) are modelled with `Option`.
-/

/-- Glyph record parsed from one `char` element of the BMFont XML
(`Glyph.__init__` in the source). -/
structure Glyph where
  id : Int
  x : Int
  y : Int
  width : Int
  height : Int
  xoffset : Int
  yoffset : Int
  xadvance : Int
deriving DecidableEq

/-- One target pixel of `Glyph.makeBitmapCode` (source lines 399-405):
map target column `x` and row `y` back into the glyph rectangle and
binarize the sampled sheet intensity at threshold 127; outside the
glyph rectangle the pixel is clear. -/
def pixelOn (img : Int → Int → Nat) (g : Glyph) (crop_x crop_y : Int) (x y : Int) : Bool :=
  let use_x := x - g.xoffset + crop_x
  let use_y := y - g.yoffset + crop_y
  if 0 ≤ use_x ∧ use_x < g.width ∧ 0 ≤ use_y ∧ use_y < g.height then
    decide (127 < img (use_x + g.x) (use_y + g.y))
  else
    false

/-- The sheet coordinate `Glyph.makeBitmapCode` samples for target pixel
`(x, y)`, or `none` when the guard on lines 403 fails and no sample is
taken. -/
def sampleCoord (g : Glyph) (crop_x crop_y : Int) (x y : Int) : Option (Int × Int) :=
  let use_x := x - g.xoffset + crop_x
  let use_y := y - g.yoffset + crop_y
  if 0 ≤ use_x ∧ use_x < g.width ∧ 0 ≤ use_y ∧ use_y < g.height then
    some (use_x + g.x, use_y + g.y)
  else
    none

/-- One step of the inner packing loop of `Glyph.makeBitmapCode`
(source lines 399-421): the state is the list of finished bytes of the
current row, the byte being filled, and the current MSB-first mask. -/
def rowStep (pb : Nat → Bool) (st : List Nat × Nat × Nat) (x : Nat) : List Nat × Nat × Nat :=
  let byte := if pb x then st.2.1 ||| st.2.2 else st.2.1
  let mask := st.2.2 / 2
  if mask = 0 then (st.1 ++ [byte], 0, 128) else (st.1, byte, mask)

/-- One row of `Glyph.makeBitmapCode`: run the packing loop over all
`w` target columns and flush the last incomplete byte (source lines
396-424). -/
def rowBytes (pb : Nat → Bool) (w : Nat) : List Nat :=
  let st := (List.range w).foldl (rowStep pb) ([], 0, 128)
  if st.2.2 ≠ 128 then st.1 ++ [st.2.1] else st.1

/-- `Glyph.makeBitmapCode` (source lines 392-428), modelled as the
sequence of emitted bytes: rows `0 ≤ y < height` in order, each row
packed MSB-first from its `width` target pixels. -/
def makeBitmapCode (g : Glyph) (img : Int → Int → Nat) (width height : Nat)
    (crop_x crop_y : Int) : List Nat :=
  ((List.range height).map
    (fun (y : Nat) =>
      rowBytes (fun (x : Nat) => pixelOn img g crop_x crop_y (x : Int) (y : Int)) width)).flatten

/-- Reference byte: the first `c` of the 8 bit positions filled, bit for
column `m + j` at weight `2 ^ (7 - j)`.  Used to characterize the packing
loop's state. -/
def packByte (pb : Nat → Bool) (m : Nat) : Nat → Nat
  | 0 => 0
  | c + 1 => packByte pb m c + (if pb (m + c) then 2 ^ (7 - c) else 0)

/-- MSB-first bit accessor for a packed bitmap: row `y`, column `x`, with
`bpr` bytes per row.  Bit `x` of a row lives in byte `x / 8` at bit
position `7 - x % 8`. -/
def outBit (bytes : List Nat) (bpr y x : Nat) : Bool :=
  Nat.testBit (bytes.getD (y * bpr + x / 8) 0) (7 - x % 8)

/-- The contiguous slice of `bytes` holding cell number `k` when every
cell is `len` bytes long. -/
def cellSlice (bytes : List Nat) (len k : Nat) : List Nat :=
  (bytes.drop (k * len)).take len

/-- Per-font configuration record (`Config.__init__` in the source).
`chars` models `self.chars`: `none` when no `Strings` option is present,
otherwise the set of code points of the characters found in the strings
file. -/
structure Config where
  first_ascii : Nat
  last_ascii : Nat
  bytes_width : Nat
  bytes_height : Nat
  crop_x : Int
  crop_y : Int
  chars : Option (Finset Nat)
  fixed_width : Int
deriving DecidableEq

/-- Python truthiness of `config.chars`: `None` and the empty set are
falsy, a non-empty set is truthy. -/
def charsTruthy (cfg : Config) : Bool :=
  match cfg.chars with
  | none => false
  | some s => decide (s ≠ ∅)

/-- The skip test `config.chars and char not in config.chars` used by
`makeBitmapsTable` (line 228) and `makeWidthsTable` (line 261). -/
def skipChar (cfg : Config) (a : Nat) : Bool :=
  match cfg.chars with
  | none => false
  | some s => decide (s ≠ ∅) && decide (a ∉ s)

/-- The membership test `config.chars and char in config.chars` used by
`makeBitmapsOffsetTable` (line 204). -/
def memberChar (cfg : Config) (a : Nat) : Bool :=
  match cfg.chars with
  | none => false
  | some s => decide (s ≠ ∅) && decide (a ∈ s)

/-- The iterated code points `range(first_ascii, last_ascii + 1)`. -/
def rangeList (cfg : Config) : List Nat :=
  (List.range (cfg.last_ascii + 1 - cfg.first_ascii)).map (fun k => cfg.first_ascii + k)

/-- The code points of the range that survive the subset filter. -/
def includedList (cfg : Config) : List Nat :=
  (rangeList cfg).filter (fun a => !skipChar cfg a)

/-- Linear first-match glyph lookup by id (source lines 232-236). -/
def findGlyph (glyphs : List Glyph) (a : Nat) : Option Glyph :=
  glyphs.find? (fun g => g.id == (a : Int))

/-- Glyph resolution with first-glyph substitution (source lines
238-242): a missing id falls back to `glyphs[0]`, which fails (Python
`IndexError`, modelled as `none`) only when the collection is empty. -/
def resolveGlyph (glyphs : List Glyph) (a : Nat) : Option Glyph :=
  match findGlyph glyphs a with
  | some g => some g
  | none => glyphs.head?

/-- Default glyph used only to state total versions of resolution. -/
def dfltGlyph : Glyph := ⟨0, 0, 0, 0, 0, 0, 0, 0⟩

/-- Total glyph resolution, meaningful whenever the collection is
non-empty. -/
def resolveTotal (glyphs : List Glyph) (a : Nat) : Glyph :=
  match findGlyph glyphs a with
  | some g => g
  | none => glyphs.headD dfltGlyph

/-- The per-code-point loop of `makeBitmapsTable` (source lines
226-245): skip excluded code points, resolve the glyph (substituting the
first glyph and recording a diagnostic for the missing code point), and
append the cell's bytes.  Returns `none` when a substitute is needed but
the collection is empty. -/
def bitmapsCells (cfg : Config) (img : Int → Int → Nat) (glyphs : List Glyph) :
    List Nat → Option (List Nat × List Nat)
  | [] => some ([], [])
  | a :: rest =>
    if skipChar cfg a then
      bitmapsCells cfg img glyphs rest
    else
      match resolveGlyph glyphs a, bitmapsCells cfg img glyphs rest with
      | some g, some (bytes, miss) =>
          some (makeBitmapCode g img (cfg.bytes_width * 8) cfg.bytes_height
                  cfg.crop_x cfg.crop_y ++ bytes,
                (if (findGlyph glyphs a).isNone then [a] else []) ++ miss)
      | _, _ => none

/-- `makeBitmapsTable` (source lines 218-249): the emitted bitmap bytes,
the diagnostics for missing code points, and the amount this call adds to
the process-wide byte counter (line 219: the FULL range size, line
224). -/
def makeBitmapsTable (cfg : Config) (img : Int → Int → Nat) (glyphs : List Glyph) :
    Option (List Nat × List Nat × Nat) :=
  (bitmapsCells cfg img glyphs (rangeList cfg)).map
    (fun p => (p.1, p.2,
      (cfg.last_ascii + 1 - cfg.first_ascii) * cfg.bytes_width * cfg.bytes_height))

/-- The per-code-point loop of `makeWidthsTable` (source lines 259-279):
skip excluded code points, resolve the glyph with first-glyph
substitution, and append its advance. -/
def widthEntries (cfg : Config) (glyphs : List Glyph) : List Nat → Option (List Int)
  | [] => some []
  | a :: rest =>
    if skipChar cfg a then
      widthEntries cfg glyphs rest
    else
      match resolveGlyph glyphs a, widthEntries cfg glyphs rest with
      | some g, some l => some (g.xadvance :: l)
      | _, _ => none

/-- `makeWidthsTable` (source lines 252-282): the emitted width entries
and the amount added to the byte counter (line 253: the FULL range
count, line 257). -/
def makeWidthsTable (cfg : Config) (glyphs : List Glyph) : Option (List Int × Nat) :=
  (widthEntries cfg glyphs (rangeList cfg)).map
    (fun l => (l, cfg.last_ascii + 1 - cfg.first_ascii))

/-- The per-code-point loop of `makeBitmapsOffsetTable` (source lines
199-212): emit the running dense index `n` for a member of the subset,
incrementing it, and the sentinel `-1` otherwise. -/
def offsetEntries (cfg : Config) : List Nat → Nat → List Int
  | [], _ => []
  | a :: rest, n =>
    if memberChar cfg a then (n : Int) :: offsetEntries cfg rest (n + 1)
    else (-1) :: offsetEntries cfg rest n

/-- `makeBitmapsOffsetTable` (source lines 196-216), as the sequence of
emitted entries. -/
def makeBitmapsOffsetTable (cfg : Config) : List Int :=
  offsetEntries cfg (rangeList cfg) 0

/-- The tables one font contributes: bitmap bytes, missing-glyph
diagnostics, optional width entries, optional offset entries, and the
font's contribution to the process-wide byte counter. -/
structure FontTables where
  bitmaps : List Nat
  missing : List Nat
  widths : Option (List Int)
  offsets : Option (List Int)
  ram : Nat
deriving DecidableEq

/-- `makeFontSource` (source lines 304-317): always build the bitmap
table, build the width table only when `fixed_width == 0`, and build the
offset table only when `config.chars` is truthy. -/
def makeFontSource (cfg : Config) (img : Int → Int → Nat) (glyphs : List Glyph) :
    Option FontTables :=
  match makeBitmapsTable cfg img glyphs with
  | none => none
  | some (bm, miss, ram1) =>
    if cfg.fixed_width = 0 then
      match makeWidthsTable cfg glyphs with
      | none => none
      | some (ws, ram2) =>
          some ⟨bm, miss, some ws,
                if charsTruthy cfg then some (makeBitmapsOffsetTable cfg) else none,
                ram1 + ram2⟩
    else
      some ⟨bm, miss, none,
            if charsTruthy cfg then some (makeBitmapsOffsetTable cfg) else none,
            ram1⟩

/-- The font loop of `processConfig` (source lines 329-342): run every
configured font and accumulate the process-wide byte counter
(`total_ram`), which starts at 0. -/
def runConfigs (fonts : List (Config × (Int → Int → Nat) × List Glyph)) :
    Option (List FontTables × Nat) :=
  match fonts with
  | [] => some ([], 0)
  | (cfg, img, glyphs) :: rest =>
    match makeFontSource cfg img glyphs, runConfigs rest with
    | some ft, some (l, t) => some (ft :: l, ft.ram + t)
    | _, _ => none

/-! Concrete data used by counterexamples and witnesses. -/

/-- A concrete sampler: a single bright pixel at the origin. -/
def imgDot : Int → Int → Nat := fun a b => if a = 0 ∧ b = 0 then 200 else 0

/-- A concrete all-bright sampler. -/
def imgFull : Int → Int → Nat := fun _ _ => 200

/-- A concrete glyph with id 65 covering the 1×1 sheet rectangle at the
origin. -/
def glyphA : Glyph := ⟨65, 0, 0, 1, 1, 0, 0, 3⟩

/-- A concrete glyph with id 66. -/
def glyphB : Glyph := ⟨66, 1, 0, 1, 1, 0, 0, 4⟩

/-- A concrete glyph with id 67. -/
def glyphC : Glyph := ⟨67, 2, 0, 1, 1, 0, 0, 5⟩

/-- A concrete configuration over the range 65–66 subset to `{65}`,
variable width. -/
def cfgSubset : Config := ⟨65, 66, 1, 1, 0, 0, some {65}, 0⟩

/-- A concrete configuration over the range 65–67 subset to `{65, 67}`,
variable width. -/
def cfgAC : Config := ⟨65, 67, 1, 1, 0, 0, some {65, 67}, 0⟩

/-- A concrete configuration over the single code point 65, no subset,
variable width. -/
def cfgOne : Config := ⟨65, 65, 1, 1, 0, 0, none, 0⟩

/-- The cell emitted for code point `a`: the rasterization of the resolved
glyph at the configured cell size and crop. -/
def cellFor (cfg : Config) (img : Int → Int → Nat) (glyphs : List Glyph) (a : Nat) :
    List Nat :=
  makeBitmapCode (resolveTotal glyphs a) img (cfg.bytes_width * 8) cfg.bytes_height
    cfg.crop_x cfg.crop_y

/-- The amount one font adds to the process-wide byte counter: the FULL
range size for the bitmap table (line 219) plus, when the width table is
built, the FULL range count (line 253). -/
def ramOf (cfg : Config) : Nat :=
  (cfg.last_ascii + 1 - cfg.first_ascii) * cfg.bytes_width * cfg.bytes_height +
    (if cfg.fixed_width = 0 then cfg.last_ascii + 1 - cfg.first_ascii else 0)

/-- The tables produced for `cfgOne` with `imgDot` and the single glyph
`glyphA`. -/
def ftOne : FontTables := ⟨[128], [], some [3], none, 2⟩

/-- The tables produced for `cfgSubset` with `imgDot` and glyphs A, B. -/
def ftSubset : FontTables := ⟨[128], [], some [3], some [0, -1], 4⟩

/-- The tables produced for `cfgAC` with `imgDot` and glyphs A, B, C. -/
def ftAC : FontTables := ⟨[128, 0], [], some [3, 5], some [0, -1, 1], 6⟩

/-! Helper lemmas about the packing loop. -/

theorem packByte_dvd (pb : Nat → Bool) (m : Nat) :
    ∀ c, c ≤ 8 → 2 ^ (8 - c) ∣ packByte pb m c := by
  intro c
  induction c with
  | zero => intro _; simp [packByte]
  | succ c ih =>
    intro hc
    have h1 := ih (by omega)
    have h2 : (8 : Nat) - (c + 1) = 7 - c := by omega
    rw [packByte, h2]
    refine Nat.dvd_add (dvd_trans (pow_dvd_pow 2 (by omega)) h1) ?_
    split
    · exact dvd_refl _
    · exact Nat.dvd_zero _

theorem packByte_le (pb : Nat → Bool) (m : Nat) :
    ∀ c, c ≤ 8 → packByte pb m c ≤ 256 - 2 ^ (8 - c) := by
  intro c
  induction c with
  | zero => intro _; simp [packByte]
  | succ c ih =>
    intro hc
    have h1 := ih (by omega)
    have h2 : (2 : Nat) ^ (8 - c) = 2 * 2 ^ (7 - c) := by
      have h : (8 : Nat) - c = (7 - c) + 1 := by omega
      rw [h, pow_succ']
    have h3 : (0 : Nat) < 2 ^ (7 - c) := Nat.two_pow_pos _
    have h5 : (2 : Nat) ^ (8 - c) ≤ 256 := by
      calc (2:Nat) ^ (8 - c) ≤ 2 ^ 8 := Nat.pow_le_pow_right (by norm_num) (by omega)
        _ = 256 := by norm_num
    have h4 : (8 : Nat) - (c + 1) = 7 - c := by omega
    rw [packByte, h4]
    split
    · omega
    · omega

theorem packByte_lt (pb : Nat → Bool) (m c : Nat) (hc : c ≤ 8) :
    packByte pb m c < 256 := by
  have h1 := packByte_le pb m c hc
  have h2 : (0 : Nat) < 2 ^ (8 - c) := Nat.two_pow_pos _
  omega

theorem packByte_testBit (pb : Nat → Bool) (m : Nat) :
    ∀ c, c ≤ 8 → ∀ r, r < 8 →
      Nat.testBit (packByte pb m c) (7 - r) = (decide (r < c) && pb (m + r)) := by
  intro c
  induction c with
  | zero => intro _ r hr; simp [packByte]
  | succ c ih =>
    intro hc r hr
    have ihr := ih (by omega) r hr
    rw [packByte]
    by_cases hp : pb (m + c)
    · rw [if_pos hp]
      obtain ⟨q, hq⟩ := packByte_dvd pb m c (by omega)
      have h8 : (8 : Nat) - c = (7 - c) + 1 := by omega
      rw [h8] at hq
      have hor : packByte pb m c + 2 ^ (7 - c) = packByte pb m c ||| 2 ^ (7 - c) := by
        rw [hq]
        exact Nat.mul_add_lt_is_or (Nat.pow_lt_pow_right (by norm_num) (by omega)) q
      rw [hor, Nat.testBit_or, ihr, Nat.testBit_two_pow]
      by_cases hrc : r = c
      · subst hrc
        simp [hp]
      · have hne : (7 : Nat) - c ≠ 7 - r := by omega
        have hd : decide (r < c) = decide (r < c + 1) := decide_eq_decide.mpr (by omega)
        simp [hne, hd]
    · rw [if_neg hp, Nat.add_zero, ihr]
      by_cases hrc : r = c
      · subst hrc
        simp [hp, Bool.eq_false_iff.mpr hp]
      · have hd : decide (r < c) = decide (r < c + 1) := decide_eq_decide.mpr (by omega)
        simp only [hd]

theorem rowStep_apply (pb : Nat → Bool) (bs : List Nat) (b mk x : Nat) :
    rowStep pb (bs, b, mk) x =
      if mk / 2 = 0 then (bs ++ [if pb x then b ||| mk else b], 0, 128)
      else (bs, if pb x then b ||| mk else b, mk / 2) := rfl

theorem rowFold_eq (pb : Nat → Bool) (w : Nat) :
    (List.range w).foldl (rowStep pb) ([], 0, 128) =
      ((List.range (w / 8)).map (fun i => packByte pb (8 * i) 8),
       packByte pb (8 * (w / 8)) (w % 8),
       2 ^ (7 - w % 8)) := by
  induction w with
  | zero => simp [packByte]
  | succ w ih =>
    rw [List.range_succ, List.foldl_append, ih]
    simp only [List.foldl_cons, List.foldl_nil]
    have hc : w % 8 < 8 := Nat.mod_lt _ (by norm_num)
    have hbyte :
        (if pb w then packByte pb (8 * (w / 8)) (w % 8) ||| 2 ^ (7 - w % 8)
         else packByte pb (8 * (w / 8)) (w % 8)) =
          packByte pb (8 * (w / 8)) (w % 8 + 1) := by
      rw [packByte, Nat.div_add_mod w 8]
      by_cases hp : pb w
      · rw [if_pos hp, if_pos hp]
        obtain ⟨q, hq⟩ := packByte_dvd pb (8 * (w / 8)) (w % 8) (by omega)
        have h8 : (8 : Nat) - w % 8 = (7 - w % 8) + 1 := by omega
        rw [h8] at hq
        rw [hq]
        exact (Nat.mul_add_lt_is_or (Nat.pow_lt_pow_right (by norm_num) (by omega)) q).symm
      · rw [if_neg hp, if_neg hp, Nat.add_zero]
    rw [rowStep_apply]
    by_cases h7 : w % 8 = 7
    · have hd : (w + 1) / 8 = w / 8 + 1 := by omega
      have hm : (w + 1) % 8 = 0 := by omega
      have hz : (2 : Nat) ^ (7 - w % 8) / 2 = 0 := by rw [h7]; norm_num
      rw [if_pos hz, hd, hm, List.range_succ, List.map_append]
      simp only [Prod.mk.injEq]
      refine ⟨?_, ?_, ?_⟩
      · rw [hbyte, h7]
        simp
      · simp [packByte]
      · norm_num
    · have hd : (w + 1) / 8 = w / 8 := by omega
      have hm : (w + 1) % 8 = w % 8 + 1 := by omega
      have hpow : (2 : Nat) ^ (7 - w % 8) = 2 ^ (6 - w % 8) * 2 := by
        have h : (7 : Nat) - w % 8 = (6 - w % 8) + 1 := by omega
        rw [h, pow_succ]
      have hz : (2 : Nat) ^ (7 - w % 8) / 2 = 2 ^ (6 - w % 8) := by
        rw [hpow]
        exact Nat.mul_div_cancel _ (by norm_num)
      have hnz : ¬(2 : Nat) ^ (6 - w % 8) = 0 := by positivity
      rw [hz, if_neg hnz, hd, hm]
      simp only [Prod.mk.injEq]
      refine ⟨trivial, hbyte, ?_⟩
      congr 1
      omega

theorem rowBytes_eq (pb : Nat → Bool) (w : Nat) :
    rowBytes pb w =
      (List.range (w / 8)).map (fun i => packByte pb (8 * i) 8) ++
        (if w % 8 = 0 then [] else [packByte pb (8 * (w / 8)) (w % 8)]) := by
  unfold rowBytes
  rw [rowFold_eq]
  by_cases h : w % 8 = 0
  · simp [h]
  · have hc : w % 8 < 8 := Nat.mod_lt _ (by norm_num)
    have hlt : (2 : Nat) ^ (7 - w % 8) < 128 := by
      calc (2 : Nat) ^ (7 - w % 8) < 2 ^ 7 :=
            Nat.pow_lt_pow_right (by norm_num) (by omega)
        _ = 128 := by norm_num
    have hne : (2 : Nat) ^ (7 - w % 8) ≠ 128 := by omega
    simp [h, hne]

theorem rowBytes_length (pb : Nat → Bool) (w : Nat) :
    (rowBytes pb w).length = (w + 7) / 8 := by
  rw [rowBytes_eq]
  by_cases h : w % 8 = 0
  · simp [h]
    omega
  · simp [h]
    omega

theorem rowBytes_getD (pb : Nat → Bool) (w i : Nat) (hi : i < (w + 7) / 8) :
    (rowBytes pb w).getD i 0 = packByte pb (8 * i) (min 8 (w - 8 * i)) := by
  rw [rowBytes_eq]
  by_cases h : i < w / 8
  · have hlen : i < ((List.range (w / 8)).map (fun i => packByte pb (8 * i) 8)).length := by
      simpa using h
    rw [List.getD_append _ _ _ _ hlen]
    have hm : min 8 (w - 8 * i) = 8 := by omega
    rw [hm]
    rw [List.getD_eq_getElem?_getD, List.getElem?_map, List.getElem?_range h]
    rfl
  · have hieq : i = w / 8 := by omega
    have hmod : w % 8 ≠ 0 := by omega
    have hlen : ((List.range (w / 8)).map (fun i => packByte pb (8 * i) 8)).length ≤ i := by
      simp [hieq]
    rw [List.getD_append_right _ _ _ _ hlen]
    have hm : min 8 (w - 8 * i) = w % 8 := by omega
    rw [hm]
    simp [hmod, hieq]

theorem rowBytes_testBit (pb : Nat → Bool) (w i r : Nat)
    (hi : i < (w + 7) / 8) (hr : r < 8) :
    Nat.testBit ((rowBytes pb w).getD i 0) (7 - r) =
      (decide (8 * i + r < w) && pb (8 * i + r)) := by
  rw [rowBytes_getD pb w i hi]
  rw [packByte_testBit pb (8 * i) (min 8 (w - 8 * i)) (by omega) r hr]
  have hiff : decide (r < min 8 (w - 8 * i)) = decide (8 * i + r < w) :=
    decide_eq_decide.mpr (by omega)
  rw [hiff]

theorem rowBytes_mem_lt (pb : Nat → Bool) (w : Nat) (b : Nat)
    (hb : b ∈ rowBytes pb w) : b < 256 := by
  rw [rowBytes_eq] at hb
  rcases List.mem_append.mp hb with h | h
  · obtain ⟨i, _, hback⟩ := List.mem_map.mp h
    exact hback ▸ packByte_lt pb _ 8 (by omega)
  · by_cases hm : w % 8 = 0
    · simp [hm] at h
    · simp [hm] at h
      exact h ▸ packByte_lt pb _ _ (le_of_lt (Nat.mod_lt _ (by norm_num)))

theorem sum_map_const {α : Type} (l : List α) (c : Nat) :
    (l.map (fun _ => c)).sum = l.length * c := by
  induction l with
  | nil => simp
  | cons a l ih => simp [ih, Nat.succ_mul, Nat.add_comm]

theorem flatten_length_const {L : List (List Nat)} {len : Nat}
    (hlen : ∀ l ∈ L, l.length = len) : L.flatten.length = L.length * len := by
  rw [List.length_flatten]
  rw [show L.map List.length = L.map (fun _ => len) from List.map_congr_left hlen]
  exact sum_map_const L len

theorem flatten_getD {L : List (List Nat)} {len : Nat}
    (hlen : ∀ l ∈ L, l.length = len) :
    ∀ y i, y < L.length → i < len →
      L.flatten.getD (y * len + i) 0 = (L.getD y []).getD i 0 := by
  induction L with
  | nil => intro y i hy _; simp at hy
  | cons l L ih =>
    intro y i hy hi
    have hl : l.length = len := hlen l (by simp)
    cases y with
    | zero =>
      rw [List.flatten_cons]
      have hlt : 0 * len + i < l.length := by omega
      rw [List.getD_append _ _ _ _ hlt]
      simp
    | succ y =>
      rw [List.flatten_cons]
      have hge : l.length ≤ (y + 1) * len + i := by
        have : len ≤ (y + 1) * len := Nat.le_mul_of_pos_left _ (by omega)
        omega
      rw [List.getD_append_right _ _ _ _ hge]
      have harg : (y + 1) * len + i - l.length = y * len + i := by
        have : (y + 1) * len = y * len + len := by ring
        omega
      rw [harg]
      have := ih (fun m hm => hlen m (by simp [hm])) y i (by simpa using hy) hi
      simpa using this

theorem flatten_slice {L : List (List Nat)} {len : Nat}
    (hlen : ∀ l ∈ L, l.length = len) :
    ∀ k, k < L.length → cellSlice L.flatten len k = L.getD k [] := by
  induction L with
  | nil => intro k hk; simp at hk
  | cons l L ih =>
    intro k hk
    have hl : l.length = len := hlen l (by simp)
    cases k with
    | zero =>
      rw [List.flatten_cons]
      unfold cellSlice
      simp only [Nat.zero_mul, List.drop_zero]
      rw [← hl, List.take_left]
      simp
    | succ k =>
      rw [List.flatten_cons]
      unfold cellSlice
      have hdrop : (l ++ L.flatten).drop ((k + 1) * len) = L.flatten.drop (k * len) := by
        have h1 : (k + 1) * len = l.length + k * len := by rw [hl]; ring
        rw [h1, List.drop_append]
      rw [hdrop]
      have := ih (fun m hm => hlen m (by simp [hm])) k (by simpa using hk)
      unfold cellSlice at this
      simpa using this

theorem makeBitmapCode_rows (g : Glyph) (img : Int → Int → Nat) (w h : Nat)
    (cx cy : Int) (l : List Nat)
    (hl : l ∈ (List.range h).map
      (fun (y : Nat) =>
        rowBytes (fun (x : Nat) => pixelOn img g cx cy (x : Int) (y : Int)) w)) :
    l.length = (w + 7) / 8 := by
  obtain ⟨y, _, hback⟩ := List.mem_map.mp hl
  rw [← hback, rowBytes_length]

theorem getD_map_range {α : Type} {n i : Nat} (d : α) (f : Nat → α) (h : i < n) :
    ((List.range n).map f).getD i d = f i := by
  rw [List.getD_eq_getElem?_getD, List.getElem?_map, List.getElem?_range h]
  rfl

theorem makeBitmapCode_length (g : Glyph) (img : Int → Int → Nat) (w h : Nat)
    (cx cy : Int) :
    (makeBitmapCode g img w h cx cy).length = h * ((w + 7) / 8) := by
  unfold makeBitmapCode
  rw [flatten_length_const (makeBitmapCode_rows g img w h cx cy),
    List.length_map, List.length_range]

theorem makeBitmapCode_testBit (g : Glyph) (img : Int → Int → Nat) (w h : Nat)
    (cx cy : Int) (y i r : Nat) (hy : y < h) (hi : i < (w + 7) / 8) (hr : r < 8) :
    Nat.testBit ((makeBitmapCode g img w h cx cy).getD (y * ((w + 7) / 8) + i) 0) (7 - r) =
      (decide (8 * i + r < w) && pixelOn img g cx cy ((8 * i + r : Nat) : Int) (y : Int)) := by
  unfold makeBitmapCode
  rw [flatten_getD (makeBitmapCode_rows g img w h cx cy) y i
    (by rw [List.length_map, List.length_range]; exact hy) hi]
  rw [getD_map_range [] _ hy, rowBytes_testBit _ w i r hi hr]

theorem makeBitmapCode_mem_lt (g : Glyph) (img : Int → Int → Nat) (w h : Nat)
    (cx cy : Int) (b : Nat) (hb : b ∈ makeBitmapCode g img w h cx cy) : b < 256 := by
  unfold makeBitmapCode at hb
  obtain ⟨l, hl, hbl⟩ := List.mem_flatten.mp hb
  obtain ⟨y, _, hback⟩ := List.mem_map.mp hl
  exact rowBytes_mem_lt _ w b (hback ▸ hbl)

/-! Helper lemmas about the table builders. -/

theorem resolveGlyph_eq (glyphs : List Glyph) (a : Nat) (hne : glyphs ≠ []) :
    resolveGlyph glyphs a = some (resolveTotal glyphs a) := by
  unfold resolveGlyph resolveTotal
  cases hf : findGlyph glyphs a with
  | some g => rfl
  | none =>
    cases glyphs with
    | nil => exact absurd rfl hne
    | cons g gs => rfl

theorem bitmapsCells_eq (cfg : Config) (img : Int → Int → Nat) (glyphs : List Glyph)
    (hne : glyphs ≠ []) :
    ∀ l : List Nat,
      bitmapsCells cfg img glyphs l =
        some (((l.filter (fun a => !skipChar cfg a)).map (cellFor cfg img glyphs)).flatten,
              (l.filter (fun a => !skipChar cfg a)).filter
                (fun a => (findGlyph glyphs a).isNone)) := by
  intro l
  induction l with
  | nil => simp [bitmapsCells]
  | cons a rest ih =>
    rw [bitmapsCells]
    by_cases hs : skipChar cfg a
    · rw [if_pos hs, ih, List.filter_cons_of_neg (by simp [hs])]
    · rw [if_neg hs, resolveGlyph_eq glyphs a hne, ih,
        List.filter_cons_of_pos (by simp [hs])]
      by_cases hf : (findGlyph glyphs a).isNone
      · simp [hf, cellFor]
      · simp [hf, cellFor]

theorem widthEntries_eq (cfg : Config) (glyphs : List Glyph) (hne : glyphs ≠ []) :
    ∀ l : List Nat,
      widthEntries cfg glyphs l =
        some ((l.filter (fun a => !skipChar cfg a)).map
          (fun a => (resolveTotal glyphs a).xadvance)) := by
  intro l
  induction l with
  | nil => simp [widthEntries]
  | cons a rest ih =>
    rw [widthEntries]
    by_cases hs : skipChar cfg a
    · rw [if_pos hs, ih, List.filter_cons_of_neg (by simp [hs])]
    · rw [if_neg hs, resolveGlyph_eq glyphs a hne, ih,
        List.filter_cons_of_pos (by simp [hs])]
      simp

theorem offsetEntries_length (cfg : Config) :
    ∀ (l : List Nat) (n : Nat), (offsetEntries cfg l n).length = l.length := by
  intro l
  induction l with
  | nil => intro n; simp [offsetEntries]
  | cons a rest ih =>
    intro n
    rw [offsetEntries]
    by_cases hm : memberChar cfg a
    · simp [hm, ih]
    · simp [hm, ih]

theorem offsetEntries_getD (cfg : Config) :
    ∀ (l : List Nat) (n k : Nat), k < l.length →
      (offsetEntries cfg l n).getD k 0 =
        if memberChar cfg (l.getD k 0)
        then ((n + (l.take k).countP (fun a => memberChar cfg a) : Nat) : Int)
        else -1 := by
  intro l
  induction l with
  | nil => intro n k hk; simp at hk
  | cons a rest ih =>
    intro n k hk
    rw [offsetEntries]
    cases k with
    | zero =>
      by_cases hm : memberChar cfg a
      · simp [hm]
      · simp [hm]
    | succ k =>
      have hk' : k < rest.length := by simpa using hk
      by_cases hm : memberChar cfg a
      · rw [if_pos hm]
        simp only [List.getD_cons_succ, List.take_succ_cons, List.countP_cons]
        rw [ih (n + 1) k hk']
        by_cases hm2 : memberChar cfg (rest.getD k 0)
        · simp only [hm2, if_pos, hm]
          push_cast
          ring
        · rw [List.getD_eq_getElem?_getD] at hm2
          simp [hm2]
      · rw [if_neg hm]
        simp only [List.getD_cons_succ, List.take_succ_cons, List.countP_cons]
        rw [ih n k hk']
        by_cases hm2 : memberChar cfg (rest.getD k 0)
        · simp only [hm2, if_pos, hm]
          push_cast
          ring
        · rw [List.getD_eq_getElem?_getD] at hm2
          simp [hm2]

theorem bitmapsCells_some_length (cfg : Config) (img : Int → Int → Nat)
    (glyphs : List Glyph) :
    ∀ (l : List Nat) (bm miss : List Nat),
      bitmapsCells cfg img glyphs l = some (bm, miss) →
      bm.length = (l.filter (fun a => !skipChar cfg a)).length *
        (cfg.bytes_height * ((cfg.bytes_width * 8 + 7) / 8)) := by
  intro l
  induction l with
  | nil =>
    intro bm miss h
    rw [bitmapsCells] at h
    simp only [Option.some.injEq, Prod.mk.injEq] at h
    simp [← h.1]
  | cons a rest ih =>
    intro bm miss h
    rw [bitmapsCells] at h
    by_cases hs : skipChar cfg a
    · rw [if_pos hs] at h
      rw [List.filter_cons_of_neg (by simp [hs])]
      exact ih bm miss h
    · rw [if_neg hs] at h
      cases hg : resolveGlyph glyphs a with
      | none => rw [hg] at h; simp at h
      | some g =>
        rw [hg] at h
        cases hrest : bitmapsCells cfg img glyphs rest with
        | none => rw [hrest] at h; simp at h
        | some p =>
          obtain ⟨bytes, miss'⟩ := p
          rw [hrest] at h
          simp only [Option.some.injEq, Prod.mk.injEq] at h
          obtain ⟨h1, _⟩ := h
          rw [← h1, List.length_append, makeBitmapCode_length,
            ih bytes miss' hrest, List.filter_cons_of_pos (by simp [hs]),
            List.length_cons]
          ring

theorem widthEntries_some_length (cfg : Config) (glyphs : List Glyph) :
    ∀ (l : List Nat) (ws : List Int),
      widthEntries cfg glyphs l = some ws →
      ws.length = (l.filter (fun a => !skipChar cfg a)).length := by
  intro l
  induction l with
  | nil =>
    intro ws h
    rw [widthEntries] at h
    simp only [Option.some.injEq] at h
    simp [← h]
  | cons a rest ih =>
    intro ws h
    rw [widthEntries] at h
    by_cases hs : skipChar cfg a
    · rw [if_pos hs] at h
      rw [List.filter_cons_of_neg (by simp [hs])]
      exact ih ws h
    · rw [if_neg hs] at h
      cases hg : resolveGlyph glyphs a with
      | none => rw [hg] at h; simp at h
      | some g =>
        rw [hg] at h
        cases hrest : widthEntries cfg glyphs rest with
        | none => rw [hrest] at h; simp at h
        | some l' =>
          rw [hrest] at h
          simp only [Option.some.injEq] at h
          rw [← h, List.length_cons, ih l' hrest,
            List.filter_cons_of_pos (by simp [hs]), List.length_cons]

theorem makeBitmapsTable_eq (cfg : Config) (img : Int → Int → Nat)
    (glyphs : List Glyph) (hne : glyphs ≠ []) :
    makeBitmapsTable cfg img glyphs =
      some (((includedList cfg).map (cellFor cfg img glyphs)).flatten,
            (includedList cfg).filter (fun a => (findGlyph glyphs a).isNone),
            (cfg.last_ascii + 1 - cfg.first_ascii) * cfg.bytes_width * cfg.bytes_height) := by
  unfold makeBitmapsTable includedList
  rw [bitmapsCells_eq cfg img glyphs hne]
  rfl

theorem makeWidthsTable_eq (cfg : Config) (glyphs : List Glyph) (hne : glyphs ≠ []) :
    makeWidthsTable cfg glyphs =
      some ((includedList cfg).map (fun a => (resolveTotal glyphs a).xadvance),
            cfg.last_ascii + 1 - cfg.first_ascii) := by
  unfold makeWidthsTable includedList
  rw [widthEntries_eq cfg glyphs hne]
  rfl

theorem makeFontSource_eq (cfg : Config) (img : Int → Int → Nat)
    (glyphs : List Glyph) (hne : glyphs ≠ []) :
    makeFontSource cfg img glyphs =
      some ⟨((includedList cfg).map (cellFor cfg img glyphs)).flatten,
            (includedList cfg).filter (fun a => (findGlyph glyphs a).isNone),
            if cfg.fixed_width = 0
              then some ((includedList cfg).map (fun a => (resolveTotal glyphs a).xadvance))
              else none,
            if charsTruthy cfg then some (makeBitmapsOffsetTable cfg) else none,
            ramOf cfg⟩ := by
  unfold makeFontSource
  rw [makeBitmapsTable_eq cfg img glyphs hne]
  by_cases hf : cfg.fixed_width = 0
  · rw [makeWidthsTable_eq cfg glyphs hne]
    simp [hf, ramOf]
  · simp [hf, ramOf]

theorem bitmapsCells_congr (c1 c2 : Config) (img : Int → Int → Nat)
    (glyphs : List Glyph) (hskip : ∀ a, skipChar c1 a = skipChar c2 a)
    (hbw : c1.bytes_width = c2.bytes_width) (hbh : c1.bytes_height = c2.bytes_height)
    (hcx : c1.crop_x = c2.crop_x) (hcy : c1.crop_y = c2.crop_y) :
    ∀ l, bitmapsCells c1 img glyphs l = bitmapsCells c2 img glyphs l := by
  intro l
  induction l with
  | nil => rfl
  | cons a rest ih =>
    rw [bitmapsCells, bitmapsCells, hskip a, hbw, hbh, hcx, hcy, ih]

theorem widthEntries_congr (c1 c2 : Config) (glyphs : List Glyph)
    (hskip : ∀ a, skipChar c1 a = skipChar c2 a) :
    ∀ l, widthEntries c1 glyphs l = widthEntries c2 glyphs l := by
  intro l
  induction l with
  | nil => rfl
  | cons a rest ih =>
    rw [widthEntries, widthEntries, hskip a, ih]

theorem offsets_none_of_not_truthy (cfg : Config) (img : Int → Int → Nat)
    (glyphs : List Glyph) (ft : FontTables) (hct : charsTruthy cfg = false)
    (h : makeFontSource cfg img glyphs = some ft) : ft.offsets = none := by
  unfold makeFontSource at h
  cases hbt : makeBitmapsTable cfg img glyphs with
  | none => rw [hbt] at h; simp at h
  | some p =>
    obtain ⟨bm, miss, ram1⟩ := p
    rw [hbt] at h
    dsimp only at h
    by_cases hf : cfg.fixed_width = 0
    · rw [if_pos hf] at h
      cases hwt : makeWidthsTable cfg glyphs with
      | none => rw [hwt] at h; simp at h
      | some q =>
        obtain ⟨ws, ram2⟩ := q
        rw [hwt] at h
        dsimp only at h
        simp only [Option.some.injEq] at h
        rw [← h]
        simp [hct]
    · rw [if_neg hf] at h
      simp only [Option.some.injEq] at h
      rw [← h]
      simp [hct]

theorem makeBitmapsTable_ram (cfg : Config) (img : Int → Int → Nat)
    (glyphs : List Glyph) (bm miss : List Nat) (ram1 : Nat)
    (h : makeBitmapsTable cfg img glyphs = some (bm, miss, ram1)) :
    ram1 = (cfg.last_ascii + 1 - cfg.first_ascii) * cfg.bytes_width * cfg.bytes_height := by
  unfold makeBitmapsTable at h
  cases hbc : bitmapsCells cfg img glyphs (rangeList cfg) with
  | none => rw [hbc] at h; simp at h
  | some p =>
    rw [hbc, Option.map_some'] at h
    simp only [Option.some.injEq, Prod.mk.injEq] at h
    exact h.2.2.symm

theorem makeWidthsTable_ram (cfg : Config) (glyphs : List Glyph)
    (ws : List Int) (ram2 : Nat)
    (h : makeWidthsTable cfg glyphs = some (ws, ram2)) :
    ram2 = cfg.last_ascii + 1 - cfg.first_ascii := by
  unfold makeWidthsTable at h
  cases hwe : widthEntries cfg glyphs (rangeList cfg) with
  | none => rw [hwe] at h; simp at h
  | some l =>
    rw [hwe, Option.map_some'] at h
    simp only [Option.some.injEq, Prod.mk.injEq] at h
    exact h.2.symm

theorem makeFontSource_ram (cfg : Config) (img : Int → Int → Nat)
    (glyphs : List Glyph) (ft : FontTables)
    (h : makeFontSource cfg img glyphs = some ft) : ft.ram = ramOf cfg := by
  unfold makeFontSource at h
  cases hbt : makeBitmapsTable cfg img glyphs with
  | none => rw [hbt] at h; simp at h
  | some p =>
    obtain ⟨bm, miss, ram1⟩ := p
    rw [hbt] at h
    dsimp only at h
    have hram1 := makeBitmapsTable_ram cfg img glyphs bm miss ram1 hbt
    by_cases hf : cfg.fixed_width = 0
    · rw [if_pos hf] at h
      cases hwt : makeWidthsTable cfg glyphs with
      | none => rw [hwt] at h; simp at h
      | some q =>
        obtain ⟨ws, ram2⟩ := q
        rw [hwt] at h
        dsimp only at h
        have hram2 := makeWidthsTable_ram cfg glyphs ws ram2 hwt
        simp only [Option.some.injEq] at h
        rw [← h]
        simp [ramOf, hf, hram1, hram2]
    · rw [if_neg hf] at h
      simp only [Option.some.injEq] at h
      rw [← h]
      simp [ramOf, hf, hram1]

theorem skipChar_of_not_truthy (cfg : Config) (hct : charsTruthy cfg = false) (a : Nat) :
    skipChar cfg a = false := by
  unfold charsTruthy at hct
  unfold skipChar
  cases hc : cfg.chars with
  | none => rfl
  | some s =>
    rw [hc] at hct
    simp only [decide_eq_false_iff_not, Decidable.not_not] at hct
    simp [hct]

theorem makeFontSource_bytes_of_not_truthy (cfg : Config) (img : Int → Int → Nat)
    (glyphs : List Glyph) (ft : FontTables) (hct : charsTruthy cfg = false)
    (h : makeFontSource cfg img glyphs = some ft) :
    ft.bitmaps.length + (ft.widths.getD []).length = ramOf cfg := by
  have hfilter : ∀ l : List Nat, l.filter (fun a => !skipChar cfg a) = l := by
    intro l
    apply List.filter_eq_self.mpr
    intro a _
    simp [skipChar_of_not_truthy cfg hct a]
  have hrlen : (rangeList cfg).length = cfg.last_ascii + 1 - cfg.first_ascii := by
    unfold rangeList
    rw [List.length_map, List.length_range]
  have hbpr : (cfg.bytes_width * 8 + 7) / 8 = cfg.bytes_width := by omega
  unfold makeFontSource at h
  cases hbt : makeBitmapsTable cfg img glyphs with
  | none => rw [hbt] at h; simp at h
  | some p =>
    obtain ⟨bm, miss, ram1⟩ := p
    rw [hbt] at h
    dsimp only at h
    have hbmlen : bm.length =
        (cfg.last_ascii + 1 - cfg.first_ascii) *
          (cfg.bytes_height * cfg.bytes_width) := by
      unfold makeBitmapsTable at hbt
      cases hbc : bitmapsCells cfg img glyphs (rangeList cfg) with
      | none => rw [hbc] at hbt; simp at hbt
      | some q =>
        rw [hbc, Option.map_some'] at hbt
        simp only [Option.some.injEq, Prod.mk.injEq] at hbt
        rw [← hbt.1]
        rw [bitmapsCells_some_length cfg img glyphs (rangeList cfg) q.1 q.2
          (by rw [hbc]), hfilter, hrlen, hbpr]
    by_cases hf : cfg.fixed_width = 0
    · rw [if_pos hf] at h
      cases hwt : makeWidthsTable cfg glyphs with
      | none => rw [hwt] at h; simp at h
      | some q =>
        obtain ⟨ws, ram2⟩ := q
        rw [hwt] at h
        dsimp only at h
        have hwlen : ws.length = cfg.last_ascii + 1 - cfg.first_ascii := by
          unfold makeWidthsTable at hwt
          cases hwe : widthEntries cfg glyphs (rangeList cfg) with
          | none => rw [hwe] at hwt; simp at hwt
          | some l =>
            rw [hwe, Option.map_some'] at hwt
            simp only [Option.some.injEq, Prod.mk.injEq] at hwt
            rw [← hwt.1]
            rw [widthEntries_some_length cfg glyphs (rangeList cfg) l hwe,
              hfilter, hrlen]
        simp only [Option.some.injEq] at h
        rw [← h]
        simp only [Option.getD_some]
        rw [hbmlen, hwlen]
        unfold ramOf
        rw [if_pos hf]
        ring
    · rw [if_neg hf] at h
      simp only [Option.some.injEq] at h
      rw [← h]
      simp only [Option.getD_none, List.length_nil]
      rw [hbmlen]
      unfold ramOf
      rw [if_neg hf]
      ring

theorem runConfigs_ram_eq :
    ∀ (fonts : List (Config × (Int → Int → Nat) × List Glyph))
      (res : List FontTables) (total : Nat),
      runConfigs fonts = some (res, total) →
      total = (fonts.map (fun f => ramOf f.1)).sum := by
  intro fonts
  induction fonts with
  | nil =>
    intro res total h
    rw [runConfigs] at h
    simp only [Option.some.injEq, Prod.mk.injEq] at h
    simp [← h.2]
  | cons f rest ih =>
    obtain ⟨cfg, img, glyphs⟩ := f
    intro res total h
    rw [runConfigs] at h
    cases hf : makeFontSource cfg img glyphs with
    | none => rw [hf] at h; simp at h
    | some ft =>
      rw [hf] at h
      cases hr : runConfigs rest with
      | none => rw [hr] at h; simp at h
      | some q =>
        obtain ⟨l, t⟩ := q
        rw [hr] at h
        dsimp only at h
        simp only [Option.some.injEq, Prod.mk.injEq] at h
        rw [← h.2, List.map_cons, List.sum_cons,
          makeFontSource_ram cfg img glyphs ft hf, ih l t hr]

theorem runConfigs_bytes_eq :
    ∀ (fonts : List (Config × (Int → Int → Nat) × List Glyph))
      (res : List FontTables) (total : Nat),
      runConfigs fonts = some (res, total) →
      (∀ f ∈ fonts, charsTruthy f.1 = false) →
      total = (res.map (fun ft => ft.bitmaps.length + (ft.widths.getD []).length)).sum := by
  intro fonts
  induction fonts with
  | nil =>
    intro res total h _
    rw [runConfigs] at h
    simp only [Option.some.injEq, Prod.mk.injEq] at h
    rw [← h.2, ← h.1]
    simp
  | cons f rest ih =>
    obtain ⟨cfg, img, glyphs⟩ := f
    intro res total h hct
    rw [runConfigs] at h
    cases hf : makeFontSource cfg img glyphs with
    | none => rw [hf] at h; simp at h
    | some ft =>
      rw [hf] at h
      cases hr : runConfigs rest with
      | none => rw [hr] at h; simp at h
      | some q =>
        obtain ⟨l, t⟩ := q
        rw [hr] at h
        dsimp only at h
        simp only [Option.some.injEq, Prod.mk.injEq] at h
        rw [← h.2, ← h.1, List.map_cons, List.sum_cons]
        rw [makeFontSource_ram cfg img glyphs ft hf] at *
        rw [ih l t hr (fun f hf2 => hct f (by simp [hf2]))]
        rw [← makeFontSource_bytes_of_not_truthy cfg img glyphs ft
          (hct (cfg, img, glyphs) (by simp)) hf]

theorem getD_map_lt {α β : Type} (l : List α) (f : α → β) (k : Nat) (d : β)
    (hk : k < l.length) : (l.map f).getD k d = f (l.get ⟨k, hk⟩) := by
  rw [List.getD_eq_getElem?_getD, List.getElem?_map, List.getElem?_eq_getElem hk]
  rfl

theorem makeFontSource_offsets (cfg : Config) (img : Int → Int → Nat)
    (glyphs : List Glyph) (ft : FontTables)
    (h : makeFontSource cfg img glyphs = some ft) :
    ft.offsets = if charsTruthy cfg then some (makeBitmapsOffsetTable cfg) else none := by
  unfold makeFontSource at h
  cases hbt : makeBitmapsTable cfg img glyphs with
  | none => rw [hbt] at h; simp at h
  | some p =>
    obtain ⟨bm, miss, ram1⟩ := p
    rw [hbt] at h
    dsimp only at h
    by_cases hf : cfg.fixed_width = 0
    · rw [if_pos hf] at h
      cases hwt : makeWidthsTable cfg glyphs with
      | none => rw [hwt] at h; simp at h
      | some q =>
        obtain ⟨ws, ram2⟩ := q
        rw [hwt] at h
        dsimp only at h
        simp only [Option.some.injEq] at h
        rw [← h]
    · rw [if_neg hf] at h
      simp only [Option.some.injEq] at h
      rw [← h]

/-! Claim theorems. -/

/-- C1: for every glyph, sampler, cell width `w` and height `h`, and crop
offsets, the rasterized bit at target row `y < h`, column `x < w` is 1 iff
`src_x = x - x_offset + crop_x` and `src_y = y - y_offset + crop_y` lie in
`[0, width) × [0, height)` and the sampled intensity at
`(sheet_x + src_x, sheet_y + src_y)` exceeds 127; in every other case the
bit is 0, with no wraparound or clamping. -/
theorem rasterized_bit_iff (g : Glyph) (img : Int → Int → Nat) (w h : Nat)
    (cx cy : Int) (x y : Nat) (hy : y < h) (hx : x < w) :
    outBit (makeBitmapCode g img w h cx cy) ((w + 7) / 8) y x = true ↔
      (0 ≤ (x : Int) - g.xoffset + cx ∧ (x : Int) - g.xoffset + cx < g.width ∧
       0 ≤ (y : Int) - g.yoffset + cy ∧ (y : Int) - g.yoffset + cy < g.height ∧
       127 < img (g.x + ((x : Int) - g.xoffset + cx))
                 (g.y + ((y : Int) - g.yoffset + cy))) := by
  unfold outBit
  have hi : x / 8 < (w + 7) / 8 := by omega
  have hr : x % 8 < 8 := Nat.mod_lt _ (by norm_num)
  have hbit := makeBitmapCode_testBit g img w h cx cy y (x / 8) (x % 8) hy hi hr
  rw [show 8 * (x / 8) + x % 8 = x from by omega] at hbit
  rw [hbit]
  have hxd : decide (x < w) = true := decide_eq_true hx
  rw [hxd, Bool.true_and]
  simp only [pixelOn]
  split_ifs with hcond
  · obtain ⟨h1, h2, h3, h4⟩ := hcond
    simp only [decide_eq_true_eq]
    constructor
    · intro him
      refine ⟨h1, h2, h3, h4, ?_⟩
      rwa [Int.add_comm g.x, Int.add_comm g.y]
    · intro hR
      have := hR.2.2.2.2
      rwa [Int.add_comm g.x, Int.add_comm g.y] at this
  · constructor
    · intro hq
      exact absurd hq (by simp)
    · intro hR
      exact absurd ⟨hR.1, hR.2.1, hR.2.2.1, hR.2.2.2.1⟩ hcond

theorem rasterized_bit_iff_witness :
    (0 < 1 ∧ 0 < 8) ∧
      (outBit (makeBitmapCode glyphA imgDot 8 1 0 0) ((8 + 7) / 8) 0 0 = true ↔
        (0 ≤ (0 : Int) - glyphA.xoffset + 0 ∧ (0 : Int) - glyphA.xoffset + 0 < glyphA.width ∧
         0 ≤ (0 : Int) - glyphA.yoffset + 0 ∧ (0 : Int) - glyphA.yoffset + 0 < glyphA.height ∧
         127 < imgDot (glyphA.x + ((0 : Int) - glyphA.xoffset + 0))
                      (glyphA.y + ((0 : Int) - glyphA.yoffset + 0)))) :=
  ⟨by decide, rasterized_bit_iff glyphA imgDot 8 1 0 0 0 0 (by decide) (by decide)⟩

/-- C2: for cell width `w ≥ 1` pixels and height `h ≥ 1` rows the output
is exactly `ceil(w/8) * h` bytes, all below 256; row `y` occupies the
bytes at indices `[y*ceil(w/8), (y+1)*ceil(w/8))`, packed MSB-first, and
a bit position `8*i + r ≥ w` of a row (the unused low bits of its last
byte) is always 0, so rows share no bits and the padding is zero. -/
theorem packed_rows_layout (g : Glyph) (img : Int → Int → Nat) (w h : Nat)
    (cx cy : Int) (_hw : 1 ≤ w) (_hh : 1 ≤ h) :
    (makeBitmapCode g img w h cx cy).length = ((w + 7) / 8) * h ∧
    (∀ b ∈ makeBitmapCode g img w h cx cy, b < 256) ∧
    (∀ y, y < h → ∀ i, i < (w + 7) / 8 → ∀ r, r < 8 →
      Nat.testBit ((makeBitmapCode g img w h cx cy).getD (y * ((w + 7) / 8) + i) 0)
          (7 - r) =
        (decide (8 * i + r < w) &&
          pixelOn img g cx cy ((8 * i + r : Nat) : Int) (y : Int))) := by
  refine ⟨?_, ?_, ?_⟩
  · rw [makeBitmapCode_length]
    ring
  · exact makeBitmapCode_mem_lt g img w h cx cy
  · intro y hy i hi r hr
    exact makeBitmapCode_testBit g img w h cx cy y i r hy hi hr

theorem packed_rows_layout_witness :
    (1 ≤ 13 ∧ 1 ≤ 2) ∧
      ((makeBitmapCode glyphA imgDot 13 2 0 0).length = ((13 + 7) / 8) * 2 ∧
       (∀ b ∈ makeBitmapCode glyphA imgDot 13 2 0 0, b < 256) ∧
       (∀ y, y < 2 → ∀ i, i < (13 + 7) / 8 → ∀ r, r < 8 →
         Nat.testBit ((makeBitmapCode glyphA imgDot 13 2 0 0).getD
             (y * ((13 + 7) / 8) + i) 0) (7 - r) =
           (decide (8 * i + r < 13) &&
             pixelOn imgDot glyphA 0 0 ((8 * i + r : Nat) : Int) (y : Int)))) :=
  ⟨by decide, packed_rows_layout glyphA imgDot 13 2 0 0 (by decide) (by decide)⟩

/-- C7: rasterization is deterministic and pure: it is modelled as a pure
function, so two calls with identical inputs yield identical bytes, and
the output depends only on the glyph, the sampler's values, the cell size
and the crop offsets. -/
theorem rasterize_deterministic (g : Glyph) (img1 img2 : Int → Int → Nat)
    (w h : Nat) (cx cy : Int) (hsame : ∀ a b : Int, img1 a b = img2 a b) :
    makeBitmapCode g img1 w h cx cy = makeBitmapCode g img2 w h cx cy := by
  have himg : img1 = img2 := funext fun a => funext fun b => hsame a b
  rw [himg]

theorem rasterize_deterministic_witness :
    (∀ a b : Int, imgDot a b = imgDot a b) ∧
      makeBitmapCode glyphA imgDot 8 1 0 0 = makeBitmapCode glyphA imgDot 8 1 0 0 :=
  ⟨fun _ _ => rfl, rasterize_deterministic glyphA imgDot imgDot 8 1 0 0 (fun _ _ => rfl)⟩

/-- C10: every sample the rasterizer takes is described by `sampleCoord`:
a pixel is computed from the sheet only through `sampleCoord`, every
sampled coordinate lies inside the glyph's declared rectangle, and when
that rectangle lies inside the image bounds every access is in-bounds. -/
theorem sample_in_glyph_rect (g : Glyph) (img : Int → Int → Nat) (cx cy : Int) :
    (∀ x y : Int, pixelOn img g cx cy x y =
      (sampleCoord g cx cy x y).elim false (fun p => decide (127 < img p.1 p.2))) ∧
    (∀ x y a b : Int, sampleCoord g cx cy x y = some (a, b) →
      g.x ≤ a ∧ a < g.x + g.width ∧ g.y ≤ b ∧ b < g.y + g.height) ∧
    (∀ x y a b W H : Int, sampleCoord g cx cy x y = some (a, b) →
      0 ≤ g.x → 0 ≤ g.y → g.x + g.width ≤ W → g.y + g.height ≤ H →
      0 ≤ a ∧ a < W ∧ 0 ≤ b ∧ b < H) := by
  have hrect : ∀ x y a b : Int, sampleCoord g cx cy x y = some (a, b) →
      g.x ≤ a ∧ a < g.x + g.width ∧ g.y ≤ b ∧ b < g.y + g.height := by
    intro x y a b hs
    simp only [sampleCoord] at hs
    split_ifs at hs with hc
    · simp only [Option.some.injEq, Prod.mk.injEq] at hs
      obtain ⟨h1, h2, h3, h4⟩ := hc
      obtain ⟨ha, hb⟩ := hs
      rw [← ha, ← hb]
      omega
  refine ⟨?_, hrect, ?_⟩
  · intro x y
    simp only [pixelOn, sampleCoord]
    split_ifs with hc
    · rfl
    · rfl
  · intro x y a b W H hs h1 h2 h3 h4
    have := hrect x y a b hs
    omega

theorem sample_in_glyph_rect_witness :
    sampleCoord glyphA 0 0 0 0 = some (0, 0) ∧
      (glyphA.x ≤ 0 ∧ 0 < glyphA.x + glyphA.width ∧
       glyphA.y ≤ 0 ∧ 0 < glyphA.y + glyphA.height) :=
  ⟨by decide, (sample_in_glyph_rect glyphA imgDot 0 0).2.1 0 0 0 0 (by decide)⟩

/-- C3 counterexample: for `cfgSubset` (range 65–66, `included_chars`
containing only 65, `fixed_advance = 0`) the width table has a single
entry, not one entry per code point of the range (2): the loop in
`makeWidthsTable` skips code points excluded by `included_chars`. -/
theorem widths_full_range_cex :
    (makeFontSource cfgSubset imgDot [glyphA, glyphB]).map
        (fun ft => ft.widths.map List.length) = some (some 1) ∧
      cfgSubset.last_ascii + 1 - cfgSubset.first_ascii = 2 ∧ (1 : Nat) ≠ 2 := by
  decide

/-- C3 amended: when `fixed_advance = 0` the width table holds exactly
the advances of the resolved glyphs of the INCLUDED code points, in
ascending order (code points excluded by `included_chars` contribute no
entry); when `fixed_advance ≠ 0` no width table is produced. -/
theorem widths_table_spec (cfg : Config) (img : Int → Int → Nat)
    (glyphs : List Glyph) (ft : FontTables) (hne : glyphs ≠ [])
    (hft : makeFontSource cfg img glyphs = some ft) :
    ft.widths = if cfg.fixed_width = 0
      then some ((includedList cfg).map (fun a => (resolveTotal glyphs a).xadvance))
      else none := by
  rw [makeFontSource_eq cfg img glyphs hne] at hft
  simp only [Option.some.injEq] at hft
  rw [← hft]

theorem widths_table_spec_witness :
    ([glyphA, glyphB] ≠ ([] : List Glyph)) ∧
      makeFontSource cfgSubset imgDot [glyphA, glyphB] = some ftSubset ∧
      ftSubset.widths = (if cfgSubset.fixed_width = 0
        then some ((includedList cfgSubset).map
          (fun a => (resolveTotal [glyphA, glyphB] a).xadvance))
        else none) :=
  ⟨by decide, by decide,
    widths_table_spec cfgSubset imgDot [glyphA, glyphB] ftSubset (by decide) (by decide)⟩

/-- C4: a code point `c` of the range, not excluded by the subset, with
no matching glyph id, is substituted by the FIRST glyph of the
(non-empty) collection: the build completes, `c` is reported in the
missing-glyph diagnostics, and the bitmap-table cell at the dense index
of `c` is the rasterization of the first glyph. -/
theorem missing_glyph_substitution (cfg : Config) (img : Int → Int → Nat)
    (glyphs : List Glyph) (c : Nat) (hne : glyphs ≠ [])
    (hc1 : cfg.first_ascii ≤ c) (hc2 : c ≤ cfg.last_ascii)
    (hskip : skipChar cfg c = false) (hfind : findGlyph glyphs c = none) :
    ∃ ft : FontTables, makeFontSource cfg img glyphs = some ft ∧
      c ∈ ft.missing ∧
      cellSlice ft.bitmaps (cfg.bytes_height * ((cfg.bytes_width * 8 + 7) / 8))
          ((includedList cfg).indexOf c) =
        makeBitmapCode (glyphs.headD dfltGlyph) img (cfg.bytes_width * 8)
          cfg.bytes_height cfg.crop_x cfg.crop_y := by
  have hmem : c ∈ includedList cfg := by
    apply List.mem_filter.mpr
    refine ⟨?_, by simp [hskip]⟩
    unfold rangeList
    apply List.mem_map.mpr
    exact ⟨c - cfg.first_ascii, by rw [List.mem_range]; omega, by omega⟩
  have hidx : (includedList cfg).indexOf c < (includedList cfg).length :=
    List.indexOf_lt_length.mpr hmem
  refine ⟨_, makeFontSource_eq cfg img glyphs hne, ?_, ?_⟩
  · simp only
    apply List.mem_filter.mpr
    exact ⟨hmem, by simp [hfind]⟩
  · simp only
    have hlens : ∀ l ∈ (includedList cfg).map (cellFor cfg img glyphs),
        l.length = cfg.bytes_height * ((cfg.bytes_width * 8 + 7) / 8) := by
      intro l hl
      obtain ⟨a, _, hback⟩ := List.mem_map.mp hl
      rw [← hback]
      unfold cellFor
      rw [makeBitmapCode_length]
    rw [flatten_slice hlens ((includedList cfg).indexOf c)
      (by rw [List.length_map]; exact hidx)]
    rw [List.getD_eq_getElem?_getD, List.getElem?_map,
      List.getElem?_eq_getElem hidx]
    have hget : (includedList cfg).get ⟨(includedList cfg).indexOf c, hidx⟩ = c :=
      List.indexOf_get hidx
    simp only [Option.map_some', Option.getD_some, List.get_eq_getElem] at hget ⊢
    rw [hget]
    unfold cellFor resolveTotal
    rw [hfind]

theorem missing_glyph_substitution_witness :
    (([glyphB] : List Glyph) ≠ [] ∧ cfgOne.first_ascii ≤ 65 ∧
      65 ≤ cfgOne.last_ascii ∧ skipChar cfgOne 65 = false ∧
      findGlyph [glyphB] 65 = none) ∧
    (∃ ft : FontTables, makeFontSource cfgOne imgDot [glyphB] = some ft ∧
      65 ∈ ft.missing ∧
      cellSlice ft.bitmaps (cfgOne.bytes_height * ((cfgOne.bytes_width * 8 + 7) / 8))
          ((includedList cfgOne).indexOf 65) =
        makeBitmapCode ([glyphB].headD dfltGlyph) imgDot (cfgOne.bytes_width * 8)
          cfgOne.bytes_height cfgOne.crop_x cfgOne.crop_y) :=
  ⟨by decide,
    missing_glyph_substitution cfgOne imgDot [glyphB] 65 (by decide) (by decide)
      (by decide) (by decide) (by decide)⟩

/-- C5: the offset table is produced iff `included_chars` is set (truthy:
present and non-empty); it has one entry per code point of the range in
ascending order: the running 0-based dense index (the number of included
code points strictly before it) for an included code point, and the
sentinel -1 for an excluded one. -/
theorem offsets_table_spec (cfg : Config) (img : Int → Int → Nat)
    (glyphs : List Glyph) (ft : FontTables)
    (hft : makeFontSource cfg img glyphs = some ft) :
    (ft.offsets.isSome = true ↔ charsTruthy cfg = true) ∧
    (∀ l, ft.offsets = some l →
      l.length = cfg.last_ascii + 1 - cfg.first_ascii ∧
      ∀ k, k < l.length →
        l.getD k 0 =
          if memberChar cfg (cfg.first_ascii + k)
          then ((((rangeList cfg).take k).countP (fun a => memberChar cfg a) : Nat) : Int)
          else -1) := by
  have hoff := makeFontSource_offsets cfg img glyphs ft hft
  constructor
  · rw [hoff]
    by_cases hct : charsTruthy cfg
    · simp [hct]
    · simp [hct]
  · intro l hl
    rw [hoff] at hl
    by_cases hct : charsTruthy cfg
    · rw [if_pos hct] at hl
      simp only [Option.some.injEq] at hl
      have hlen : l.length = cfg.last_ascii + 1 - cfg.first_ascii := by
        rw [← hl]
        unfold makeBitmapsOffsetTable
        rw [offsetEntries_length]
        unfold rangeList
        rw [List.length_map, List.length_range]
      refine ⟨hlen, ?_⟩
      intro k hk
      have hkr : k < (rangeList cfg).length := by
        unfold rangeList
        rw [List.length_map, List.length_range]
        omega
      rw [← hl]
      unfold makeBitmapsOffsetTable
      rw [offsetEntries_getD cfg (rangeList cfg) 0 k hkr]
      have hgd : (rangeList cfg).getD k 0 = cfg.first_ascii + k := by
        unfold rangeList
        exact getD_map_range 0 _ (by unfold rangeList at hkr; simpa using hkr)
      rw [hgd]
      norm_num
    · rw [if_neg hct] at hl
      simp at hl

theorem offsets_table_spec_witness :
    makeFontSource cfgAC imgDot [glyphA, glyphB, glyphC] = some ftAC ∧
    ((ftAC.offsets.isSome = true ↔ charsTruthy cfgAC = true) ∧
     (∀ l, ftAC.offsets = some l →
       l.length = cfgAC.last_ascii + 1 - cfgAC.first_ascii ∧
       ∀ k, k < l.length →
         l.getD k 0 =
           if memberChar cfgAC (cfgAC.first_ascii + k)
           then ((((rangeList cfgAC).take k).countP (fun a => memberChar cfgAC a) : Nat) : Int)
           else -1)) :=
  ⟨by decide, offsets_table_spec cfgAC imgDot [glyphA, glyphB, glyphC] ftAC (by decide)⟩

/-- C5 example from the spec: `included_chars = \x7bA, C\x7d` over range
65–67 yields the offset table `[0, -1, 1]`. -/
theorem offsets_table_example : makeBitmapsOffsetTable cfgAC = [0, -1, 1] := by
  decide

/-- C6: the packed bitmap table is the concatenation, in ascending
code-point order, of one cell per INCLUDED code point of the range
(excluded code points contribute no bytes), and its byte length is the
number of included code points times `bytes_width * bytes_height`. -/
theorem bitmap_table_layout (cfg : Config) (img : Int → Int → Nat)
    (glyphs : List Glyph) (bm miss : List Nat) (ram1 : Nat) (hne : glyphs ≠ [])
    (h : makeBitmapsTable cfg img glyphs = some (bm, miss, ram1)) :
    bm = ((includedList cfg).map (cellFor cfg img glyphs)).flatten ∧
    bm.length = (includedList cfg).length * (cfg.bytes_width * cfg.bytes_height) := by
  rw [makeBitmapsTable_eq cfg img glyphs hne] at h
  simp only [Option.some.injEq, Prod.mk.injEq] at h
  obtain ⟨h1, h2, h3⟩ := h
  refine ⟨h1.symm, ?_⟩
  rw [← h1]
  have hlens : ∀ l ∈ (includedList cfg).map (cellFor cfg img glyphs),
      l.length = cfg.bytes_height * ((cfg.bytes_width * 8 + 7) / 8) := by
    intro l hl
    obtain ⟨a, _, hback⟩ := List.mem_map.mp hl
    rw [← hback]
    unfold cellFor
    rw [makeBitmapCode_length]
  rw [flatten_length_const hlens, List.length_map]
  have hbpr : (cfg.bytes_width * 8 + 7) / 8 = cfg.bytes_width := by omega
  rw [hbpr]
  ring

theorem bitmap_table_layout_witness :
    (([glyphA, glyphB] : List Glyph) ≠ [] ∧
      makeBitmapsTable cfgSubset imgDot [glyphA, glyphB] = some ([128], [], 2)) ∧
    ([128] = ((includedList cfgSubset).map
        (cellFor cfgSubset imgDot [glyphA, glyphB])).flatten ∧
     ([128] : List Nat).length =
       (includedList cfgSubset).length *
         (cfgSubset.bytes_width * cfgSubset.bytes_height)) :=
  ⟨⟨by decide, by decide⟩,
    bitmap_table_layout cfgSubset imgDot [glyphA, glyphB] [128] [] 2
      (by decide) (by decide)⟩

/-- C8 counterexample: one font over range 65–66 subset to a single
included code point, variable width: the diagnostic byte counter is 4
(full-range sizes) while the emitted bitmap table plus width table hold
2 bytes. -/
theorem ram_counter_cex :
    runConfigs [(cfgSubset, imgDot, [glyphA, glyphB])] = some ([ftSubset], 4) ∧
    ftSubset.bitmaps.length + (ftSubset.widths.getD []).length = 2 ∧
    (4 : Nat) ≠ 2 := by
  decide

/-- C8 amended: the diagnostic byte counter of a run equals the sum over
fonts of the FULL configured range count times `bytes_width *
bytes_height` plus, when `fixed_advance = 0`, the full range count — the
counter uses declared full-range sizes, not the subsetted table lengths;
only for runs in which no font has a truthy `included_chars` does it
equal the total bytes of the emitted bitmap and width tables. -/
theorem ram_counter_spec (fonts : List (Config × (Int → Int → Nat) × List Glyph))
    (res : List FontTables) (total : Nat) (h : runConfigs fonts = some (res, total)) :
    total = (fonts.map (fun f => ramOf f.1)).sum ∧
    ((∀ f ∈ fonts, charsTruthy f.1 = false) →
      total = (res.map (fun ft => ft.bitmaps.length + (ft.widths.getD []).length)).sum) :=
  ⟨runConfigs_ram_eq fonts res total h, runConfigs_bytes_eq fonts res total h⟩

theorem ram_counter_spec_witness :
    runConfigs [(cfgOne, imgDot, [glyphA])] = some ([ftOne], 2) ∧
    (2 = ([(cfgOne, imgDot, [glyphA])].map
        (fun f => ramOf f.1)).sum ∧
     ((∀ f ∈ [(cfgOne, imgDot, [glyphA])], charsTruthy f.1 = false) →
       2 = ([ftOne].map
         (fun ft => ft.bitmaps.length + (ft.widths.getD []).length)).sum)) :=
  ⟨by decide, ram_counter_spec [(cfgOne, imgDot, [glyphA])] [ftOne] 2 (by decide)⟩

/-- C9: a present-but-empty `included_chars` set behaves exactly like an
absent one: the whole font build is identical (no code point of the
range is excluded from the bitmap or width table) and no offset table is
produced — the subset checks test truthiness (non-emptiness), not mere
presence. -/
theorem empty_chars_like_absent (cfg : Config) (img : Int → Int → Nat)
    (glyphs : List Glyph) :
    makeFontSource {cfg with chars := some ∅} img glyphs =
      makeFontSource {cfg with chars := none} img glyphs ∧
    (∀ ft, makeFontSource {cfg with chars := some ∅} img glyphs = some ft →
      ft.offsets = none) := by
  have hct1 : charsTruthy {cfg with chars := some ∅} = false := by
    simp [charsTruthy]
  have hskip : ∀ a, skipChar {cfg with chars := some ∅} a =
      skipChar {cfg with chars := none} a := by
    intro a
    simp [skipChar]
  constructor
  · have hbt : makeBitmapsTable {cfg with chars := some ∅} img glyphs =
        makeBitmapsTable {cfg with chars := none} img glyphs := by
      unfold makeBitmapsTable
      rw [bitmapsCells_congr _ _ img glyphs hskip rfl rfl rfl rfl]
      rfl
    have hwt : makeWidthsTable {cfg with chars := some ∅} glyphs =
        makeWidthsTable {cfg with chars := none} glyphs := by
      unfold makeWidthsTable
      rw [widthEntries_congr _ _ glyphs hskip]
      rfl
    have hct2 : charsTruthy {cfg with chars := none} = false := by
      simp [charsTruthy]
    unfold makeFontSource
    rw [hbt, hwt, hct1, hct2]
    rfl
  · intro ft hft
    exact offsets_none_of_not_truthy _ img glyphs ft hct1 hft

theorem empty_chars_like_absent_witness :
    (makeFontSource {cfgOne with chars := some ∅} imgDot [glyphA] =
       makeFontSource {cfgOne with chars := none} imgDot [glyphA]) ∧
    ftOne.offsets = none :=
  ⟨(empty_chars_like_absent cfgOne imgDot [glyphA]).1,
    (empty_chars_like_absent cfgOne imgDot [glyphA]).2 ftOne (by decide)⟩
